import Mathlib

/-!
Verification development for the serial AMR stencil kernel (amr.c).

The kernel is embedded shallowly over exact rational arithmetic:
grids are total functions from integer coordinates to rationals,
the C loops over grid points become explicit lists of visited points,
and the floating point type DTYPE is modelled by the rationals
(the specification states every numerical property up to rounding,
so the exact-arithmetic form is the property being checked).
-/

namespace AMR

/-- COEFX of amr.c line 70: coefficient of i in the initial background field. -/
def COEFX : ℚ := 1

/-- COEFY of amr.c line 71: coefficient of j in the initial background field. -/
def COEFY : ℚ := 1

/-- EPSILON of amr.c line 69 (double precision tolerance). -/
def EPSILON : ℚ := 1 / 100000000

/-- A grid buffer: values indexed by (i, j), as in the IN/OUT macros of
amr.c lines 82-86 (the linearised index i + j*n is flattened back to a pair). -/
def Grid : Type := ℤ → ℤ → ℚ

/-- The compile-time stencil shape selector of amr.c lines 291-309 (STAR set or unset). -/
inductive Shape : Type
  | star : Shape
  | compact : Shape

/-- The loop-order selector chosen at startup from tile_size, amr.c lines 241-245:
either the direct row-major double loop or the cache-blocked loop with a tile size. -/
inductive Strategy : Type
  | untiled : Strategy
  | tiled : ℕ → Strategy

/-- A strategy the argument check of amr.c line 243 can produce: tiling is enabled
only with a positive tile size. -/
def validStrategy : Strategy → Bool
  | Strategy.untiled => true
  | Strategy.tiled T => decide (0 < T)

/-- The star weight table, amr.c lines 286-296: the table is zero initialised and,
for each offset k = 1..RADIUS, WEIGHT(0,k) and WEIGHT(k,0) are set to 1/(2*k*RADIUS)
while WEIGHT(0,-k) and WEIGHT(-k,0) are set to its negation.  Every remaining entry
keeps its initial zero. -/
def weightStar (R : ℕ) (ii jj : ℤ) : ℚ :=
  if ii = 0 ∧ 1 ≤ jj ∧ jj ≤ (R : ℤ) then 1 / (2 * (jj : ℚ) * R)
  else if jj = 0 ∧ 1 ≤ ii ∧ ii ≤ (R : ℤ) then 1 / (2 * (ii : ℚ) * R)
  else if ii = 0 ∧ -(R : ℤ) ≤ jj ∧ jj ≤ -1 then -(1 / (2 * (-(jj : ℚ)) * R))
  else if jj = 0 ∧ -(R : ℤ) ≤ ii ∧ ii ≤ -1 then -(1 / (2 * (-(ii : ℚ)) * R))
  else 0

/-- The compact weight table, amr.c lines 297-309: zero initialised; for each
jj = 1..RADIUS the loop sets, for ii strictly between -jj and jj, the four entries
WEIGHT(ii,jj), WEIGHT(ii,-jj), WEIGHT(jj,ii), WEIGHT(-jj,ii) to
(plus or minus) 1/(4*jj*(2*jj-1)*RADIUS), and the diagonal entries
WEIGHT(jj,jj), WEIGHT(-jj,-jj) to (plus or minus) 1/(4*jj*RADIUS).
Each entry is written at most once, so the table is the case split below. -/
def weightCompact (R : ℕ) (ii jj : ℤ) : ℚ :=
  if 1 ≤ jj ∧ jj ≤ (R : ℤ) ∧ -jj < ii ∧ ii < jj then
    1 / (4 * (jj : ℚ) * (2 * (jj : ℚ) - 1) * R)
  else if jj ≤ -1 ∧ -(R : ℤ) ≤ jj ∧ jj < ii ∧ ii < -jj then
    -(1 / (4 * (-(jj : ℚ)) * (2 * (-(jj : ℚ)) - 1) * R))
  else if 1 ≤ ii ∧ ii ≤ (R : ℤ) ∧ -ii < jj ∧ jj < ii then
    1 / (4 * (ii : ℚ) * (2 * (ii : ℚ) - 1) * R)
  else if ii ≤ -1 ∧ -(R : ℤ) ≤ ii ∧ ii < jj ∧ jj < -ii then
    -(1 / (4 * (-(ii : ℚ)) * (2 * (-(ii : ℚ)) - 1) * R))
  else if 1 ≤ jj ∧ jj ≤ (R : ℤ) ∧ ii = jj then 1 / (4 * (jj : ℚ) * R)
  else if jj ≤ -1 ∧ -(R : ℤ) ≤ jj ∧ ii = jj then -(1 / (4 * (-(jj : ℚ)) * R))
  else 0

/-- The weight table selected by the compile-time shape, amr.c lines 291-309. -/
def weightOf : Shape → ℕ → ℤ → ℤ → ℚ
  | Shape.star => weightStar
  | Shape.compact => weightCompact

/-- The scaled refinement weight table of amr.c lines 312-316:
WEIGHTR(ii,jj) = WEIGHT(ii,jj) * expand. -/
def weightScaled (w : ℤ → ℤ → ℚ) (expand : ℕ) (ii jj : ℤ) : ℚ :=
  w ii jj * (expand : ℚ)

/-- stencil_size for the star shape, amr.c line 292. -/
def stencilSizeStar (R : ℕ) : ℕ := 4 * R + 1

/-- stencil_size for the compact shape, amr.c line 298. -/
def stencilSizeCompact (R : ℕ) : ℕ := (2 * R + 1) * (2 * R + 1)

/-- The contribution the star stencil adds into OUT(i,j), amr.c lines 450-452:
one pass over column offsets jj = -RADIUS..RADIUS with WEIGHT(0,jj), then the
row offsets ii = -RADIUS..-1 and ii = 1..RADIUS with WEIGHT(ii,0). -/
def starContrib (R : ℕ) (w : ℤ → ℤ → ℚ) (inb : Grid) (i j : ℤ) : ℚ :=
  (∑ jj ∈ Finset.Icc (-(R : ℤ)) R, w 0 jj * inb i (j + jj))
    + (∑ ii ∈ Finset.Icc (-(R : ℤ)) (-1), w ii 0 * inb (i + ii) j)
    + (∑ ii ∈ Finset.Icc (1 : ℤ) R, w ii 0 * inb (i + ii) j)

/-- The contribution the compact stencil adds into OUT(i,j), amr.c lines 459-460:
the full double loop jj = -RADIUS..RADIUS, ii = -RADIUS..RADIUS. -/
def compactContrib (R : ℕ) (w : ℤ → ℤ → ℚ) (inb : Grid) (i j : ℤ) : ℚ :=
  ∑ jj ∈ Finset.Icc (-(R : ℤ)) R, ∑ ii ∈ Finset.Icc (-(R : ℤ)) R,
    w ii jj * inb (i + ii) (j + jj)

/-- The per-point stencil contribution of the selected shape. -/
def contribOf : Shape → ℕ → (ℤ → ℤ → ℚ) → Grid → ℤ → ℤ → ℚ
  | Shape.star => starContrib
  | Shape.compact => compactContrib

/-- The index sequence of a C loop of the form for (x = lo; x < hi; x += T),
as in amr.c lines 444, 467-468: the k-th iterate is lo + T*k and the trip count
is the rounded-up length (hi - lo)/T. -/
def stepList (lo hi : ℤ) (T : ℕ) : List ℤ :=
  (List.range (((hi - lo).toNat + T - 1) / T)).map (fun k : ℕ => lo + (T : ℤ) * (k : ℤ))

/-- The (i, j) pairs visited by the untiled interior double loop of amr.c
lines 444-445: j runs over the interior rows, i over the interior columns. -/
def untiledPoints (R : ℕ) (S : ℤ) : List (ℤ × ℤ) :=
  (stepList (R : ℤ) (S - R) 1).flatMap (fun j =>
    (stepList (R : ℤ) (S - R) 1).map (fun i => (i, j)))

/-- The (i, j) pairs visited by the tiled interior loop nest of amr.c
lines 467-470: tile origins jt, it advance by tile_size and each tile is
clipped to the interior boundary by MIN(S-RADIUS, start+tile_size). -/
def tiledPoints (R : ℕ) (S : ℤ) (T : ℕ) : List (ℤ × ℤ) :=
  (stepList (R : ℤ) (S - R) T).flatMap (fun jt =>
    (stepList (R : ℤ) (S - R) T).flatMap (fun it =>
      (stepList jt (min (S - R) (jt + T)) 1).flatMap (fun j =>
        (stepList it (min (S - R) (it + T)) 1).map (fun i => (i, j)))))

/-- The point sequence of the selected loop order. -/
def pointsOf : Strategy → ℕ → ℤ → List (ℤ × ℤ)
  | Strategy.untiled => fun R S => untiledPoints R S
  | Strategy.tiled T => fun R S => tiledPoints R S T

/-- One stencil application: at each visited point the loop body accumulates the
contribution c i j into OUT(i,j) (the += of amr.c lines 450-460), leaving every
other cell of out untouched. -/
def applyPoints (c : ℤ → ℤ → ℚ) : List (ℤ × ℤ) → Grid → Grid
  | [], out => out
  | p :: pts, out =>
      applyPoints c pts
        (fun x y => if x = p.1 ∧ y = p.2 then out x y + c x y else out x y)

/-- A full stencil application of the selected shape and loop order to a buffer of
linear size S, amr.c lines 443-492 (identical in structure for the refinement
grids, lines 386-435, with nr_true for S and the scaled weights for w). -/
def applyStencil (shape : Shape) (strat : Strategy) (R : ℕ) (S : ℤ)
    (w : ℤ → ℤ → ℚ) (inb out : Grid) : Grid :=
  applyPoints (contribOf shape R w inb) (pointsOf strat R S) out

/-- A linear-plus-constant field a*i + b*j + c. -/
def lin (a b c : ℚ) : Grid := fun i j => a * i + b * j + c

/-- The initial background state, amr.c lines 350-353:
IN(i,j) = COEFX*i + COEFY*j and OUT zero on the interior (the model zeroes the
whole buffer; the kernel never reads OUT outside the interior). -/
def bgInit : Grid × Grid :=
  (fun i j => COEFX * i + COEFY * j, fun _ _ => 0)

/-- One iteration of the background update, amr.c lines 443-495: the stencil is
applied from in into out, then the constant 1 is added to every cell of in.
The refinement buffers live in separate allocations (lines 264-283) and the
refinement part of the iteration reads in only through interpolate, so the
background state is unaffected by it. -/
def bgStep (shape : Shape) (strat : Strategy) (R : ℕ) (S : ℤ)
    (s : Grid × Grid) : Grid × Grid :=
  (fun i j => s.1 i j + 1,
   applyStencil shape strat R S (weightOf shape R) s.1 s.2)

/-- The background state reached after t executions of the iteration body,
starting from the initial state (the loop of amr.c line 372 runs
iter = 0..iterations, i.e. iterations+1 bodies). -/
def bgRun (shape : Shape) (strat : Strategy) (R : ℕ) (S : ℤ) (t : ℕ) :
    Grid × Grid :=
  (bgStep shape strat R S)^[t] bgInit

/-- f_active_points of amr.c line 318: the interior point count as a DTYPE. -/
def fActivePoints (S : ℤ) (R : ℕ) : ℚ := ((S - 2 * R : ℤ) : ℚ) * ((S - 2 * R : ℤ) : ℚ)

/-- The L1 norm of amr.c lines 502-506: the sum of ABS(OUT(i,j)) over the interior
RADIUS <= i,j < S-RADIUS, divided by f_active_points. -/
def l1Norm (S : ℤ) (R : ℕ) (out : Grid) : ℚ :=
  (∑ j ∈ Finset.Ico (R : ℤ) (S - R), ∑ i ∈ Finset.Ico (R : ℤ) (S - R), |out i j|)
    / fActivePoints S R

/-- The refinement grid (re-)born at iteration iter, amr.c line 379:
g = (iter/period) % 4, assigned whenever iter % period == 0 and unchanged until
the next birth, so during any iteration it equals (iter/period) % 4. -/
def activeCorner (period iter : ℕ) : ℕ := (iter / period) % 4

/-- Corner g receives stencil sub-iterations at iteration iter, amr.c lines
377-384: the corner owning the current cycle phase is g and the phase is inside
the duration window (iter % period < duration). -/
def cornerActive (period duration g iter : ℕ) : Prop :=
  activeCorner period iter = g ∧ iter % period < duration

instance (period duration g iter : ℕ) :
    Decidable (cornerActive period duration g iter) :=
  inferInstanceAs (Decidable (_ ∧ _))

/-- The number of loop iterations among iter = 0..N-1 at which corner g is the
active corner of the scheduler. -/
def activeIterCount (period duration g N : ℕ) : ℕ :=
  ((Finset.range N).filter (fun iter => cornerActive period duration g iter)).card

/-- full_cycles of amr.c line 538. -/
def fullCycles (iterations period : ℕ) : ℕ := (iterations + 1) / (period * 4)

/-- leftover_iterations of amr.c line 539. -/
def leftoverIterations (iterations period : ℕ) : ℕ := (iterations + 1) % (period * 4)

/-- iterations_r[g] of amr.c lines 540-541:
sub_iterations * (full_cycles*duration + MIN(MAX(0, leftover - g*period), duration)).
Natural subtraction renders MAX(0, leftover - g*period) exactly. -/
def iterationsR (iterations period duration subIterations g : ℕ) : ℕ :=
  subIterations * (fullCycles iterations period * duration
    + min (leftoverIterations iterations period - g * period) duration)

/-- reference_norm_r[g] of amr.c line 542: the value the measured refinement norm
is compared against, for every g including g = 0. -/
def referenceNormR (iterations period duration subIterations g : ℕ) : ℚ :=
  (iterationsR iterations period duration subIterations g : ℚ) * (COEFX + COEFY)

/-- reference_norm of amr.c line 523. -/
def referenceNorm (iterations : ℕ) : ℚ := ((iterations : ℚ) + 1) * (COEFX + COEFY)

/-- The validate flag after the checks of amr.c lines 522-554: it stays 1 exactly
when the background norm and all four refinement norms are within EPSILON of
their references. -/
def validateFlag (norm ref : ℚ) (normR refR : ℕ → ℚ) : Bool :=
  decide (|norm - ref| ≤ EPSILON)
    && (decide (|normR 0 - refR 0| ≤ EPSILON)
    && (decide (|normR 1 - refR 1| ≤ EPSILON)
    && (decide (|normR 2 - refR 2| ≤ EPSILON)
    && decide (|normR 3 - refR 3| ≤ EPSILON))))

/-- What the tail of main reports. -/
structure FinalReport : Type where
  ratePrinted : Bool
  exitSuccess : Bool

/-- The control flow of amr.c lines 556-578: when validate is 0 the program
prints the failure message and exits with failure before the flops and rate are
computed (lines 556-559); only on the validating path does it reach the flops
computation and the rate printf (lines 563-576). -/
def finalPhase (validate : Bool) : FinalReport :=
  if validate then { ratePrinted := true, exitSuccess := true }
  else { ratePrinted := false, exitSuccess := false }

/-- The reporting tail of main as a function of the measured and reference norms. -/
def runTail (norm ref : ℚ) (normR refR : ℕ → ℚ) : FinalReport :=
  finalPhase (validateFlag norm ref normR refR)

/-- The flops figure of amr.c lines 563-567 (before the interpolation flops of
lines 569-573, which do not involve iterations_r): flops starts from
f_active_points*iterations, then iterations_r[0] is decremented by one (line 565,
the untimed warm-up pass of corner 0), each refinement contributes
f_active_points_r*iterations_r[g], and the total is scaled by 2*stencil_size+1. -/
def flopsModel (fActive fActiveR : ℚ)
    (iterations period duration subIterations stencilSize : ℕ) : ℚ :=
  (fActive * iterations
    + fActiveR * (((iterationsR iterations period duration subIterations 0 - 1 : ℕ) : ℚ)
        + (iterationsR iterations period duration subIterations 1 : ℚ)
        + (iterationsR iterations period duration subIterations 2 : ℚ)
        + (iterationsR iterations period duration subIterations 3 : ℚ)))
    * (2 * (stencilSize : ℚ) + 1)

/-- The number of x < N whose residue modulo L lies in the window [s, s+D). -/
def windowCount (L s D N : ℕ) : ℕ :=
  ((Finset.range N).filter (fun x => s ≤ x % L ∧ x % L < s + D)).card

lemma windowCount_succ (L s D N : ℕ) :
    windowCount L s D (N + 1)
      = windowCount L s D N + if s ≤ N % L ∧ N % L < s + D then 1 else 0 := by
  unfold windowCount
  rw [Finset.range_succ, Finset.filter_insert]
  by_cases h : s ≤ N % L ∧ N % L < s + D
  · rw [if_pos h, if_pos h, Finset.card_insert_of_not_mem (by simp)]
  · rw [if_neg h, if_neg h, Nat.add_zero]

lemma windowCount_formula (L s D : ℕ) (hL : 0 < L) (hsD : s + D ≤ L) (N : ℕ) :
    windowCount L s D N = N / L * D + min (N % L - s) D := by
  induction N with
  | zero => simp [windowCount]
  | succ N ih =>
      rw [windowCount_succ, ih]
      have hdm := Nat.div_add_mod N L
      have hrlt : N % L < L := Nat.mod_lt _ hL
      rcases Nat.lt_or_ge (N % L + 1) L with hr | hr
      · have hmod : (N + 1) % L = N % L + 1 := by
          rw [show N + 1 = N % L + 1 + L * (N / L) from by omega]
          rw [Nat.add_mul_mod_self_left, Nat.mod_eq_of_lt hr]
        have hdiv : (N + 1) / L = N / L := by
          rw [show N + 1 = N % L + 1 + L * (N / L) from by omega]
          rw [Nat.add_mul_div_left _ _ hL, Nat.div_eq_of_lt hr, Nat.zero_add]
        rw [hmod, hdiv]
        split_ifs with h <;> omega
      · have hreq : N % L + 1 = L := by omega
        have hmod : (N + 1) % L = 0 := by
          rw [show N + 1 = L * (N / L + 1) from by
            rw [Nat.mul_add, Nat.mul_one]; omega]
          exact Nat.mul_mod_right _ _
        have hdiv : (N + 1) / L = N / L + 1 := by
          rw [show N + 1 = L * (N / L + 1) from by
            rw [Nat.mul_add, Nat.mul_one]; omega]
          exact Nat.mul_div_cancel_left _ hL
        rw [hmod, hdiv, Nat.add_mul, Nat.one_mul]
        split_ifs with h <;> omega

lemma cornerActive_iff_window (period duration g iter : ℕ)
    (hd : duration ≤ period) :
    cornerActive period duration g iter ↔
      (g * period ≤ iter % (period * 4)
        ∧ iter % (period * 4) < g * period + duration) := by
  have h1 : iter % (period * 4) / period = iter / period % 4 :=
    Nat.mod_mul_right_div_self iter period 4
  have h2 : iter % (period * 4) % period = iter % period :=
    Nat.mod_mod_of_dvd iter ⟨4, rfl⟩
  unfold cornerActive activeCorner
  constructor
  · rintro ⟨hg, hlt⟩
    have hdg : iter % (period * 4) / period = g := by rw [h1, hg]
    have hdm := Nat.div_add_mod (iter % (period * 4)) period
    rw [hdg] at hdm
    have hdm' : g * period + iter % (period * 4) % period = iter % (period * 4) := by
      rw [mul_comm g period]; exact hdm
    constructor
    · rw [← hdm']; exact Nat.le_add_right _ _
    · rw [← hdm']
      exact Nat.add_lt_add_left (by rw [h2]; exact hlt) _
  · rintro ⟨hge, hlt⟩
    have hub : iter % (period * 4) < (g + 1) * period := by
      calc iter % (period * 4) < g * period + duration := hlt
        _ ≤ g * period + period := Nat.add_le_add_left hd _
        _ = (g + 1) * period := by ring
    have hdg : iter % (period * 4) / period = g := Nat.div_eq_of_lt_le hge hub
    have hdm := Nat.div_add_mod (iter % (period * 4)) period
    rw [hdg] at hdm
    have hdm' : g * period + iter % (period * 4) % period = iter % (period * 4) := by
      rw [mul_comm g period]; exact hdm
    constructor
    · rw [← h1, hdg]
    · rw [← h2]
      have := hdm' ▸ hlt
      exact Nat.lt_of_add_lt_add_left this

lemma activeIterCount_eq_window (period duration g N : ℕ)
    (hd : duration ≤ period) :
    activeIterCount period duration g N
      = windowCount (period * 4) (g * period) duration N := by
  unfold activeIterCount windowCount
  congr 1
  apply Finset.filter_congr
  intro x _
  simpa using cornerActive_iff_window period duration g x hd

lemma windowCount_mul (L s D k : ℕ) (hL : 0 < L) (hsD : s + D ≤ L) :
    windowCount L s D (k * L) = k * D := by
  rw [windowCount_formula L s D hL hsD, Nat.mul_div_cancel k hL, Nat.mul_mod_left]
  omega

lemma activeIterCount_Ico (period duration g c : ℕ) (hp : 0 < period)
    (hd : duration ≤ period) (hg : g < 4) :
    ((Finset.Ico (c * (period * 4)) ((c + 1) * (period * 4))).filter
      (fun iter => cornerActive period duration g iter)).card = duration := by
  have hL : 0 < period * 4 := by omega
  have hsD : g * period + duration ≤ period * 4 := by
    calc g * period + duration ≤ 3 * period + period :=
          Nat.add_le_add (Nat.mul_le_mul_right period (by omega)) hd
      _ = period * 4 := by ring
  have hsplit : Finset.range ((c + 1) * (period * 4))
      = Finset.Ico 0 (c * (period * 4))
        ∪ Finset.Ico (c * (period * 4)) ((c + 1) * (period * 4)) := by
    rw [Finset.range_eq_Ico,
      Finset.Ico_union_Ico_eq_Ico (Nat.zero_le _)
        (Nat.mul_le_mul_right _ (by omega))]
  have hdisj : Disjoint
      ((Finset.Ico 0 (c * (period * 4))).filter
          (fun iter => cornerActive period duration g iter))
      ((Finset.Ico (c * (period * 4)) ((c + 1) * (period * 4))).filter
          (fun iter => cornerActive period duration g iter)) :=
    Finset.disjoint_filter_filter
      (Finset.Ico_disjoint_Ico_consecutive 0 (c * (period * 4)) ((c + 1) * (period * 4)))
  have hcard := congrArg Finset.card hsplit
  rw [Finset.range_eq_Ico] at hcard
  have h1 : activeIterCount period duration g ((c + 1) * (period * 4))
      = activeIterCount period duration g (c * (period * 4))
        + ((Finset.Ico (c * (period * 4)) ((c + 1) * (period * 4))).filter
            (fun iter => cornerActive period duration g iter)).card := by
    unfold activeIterCount
    rw [Finset.range_eq_Ico, ← Finset.card_union_of_disjoint hdisj,
      ← Finset.filter_union, ← hsplit, Finset.range_eq_Ico]
  have h2 := activeIterCount_eq_window period duration g ((c + 1) * (period * 4)) hd
  have h3 := activeIterCount_eq_window period duration g (c * (period * 4)) hd
  rw [h2, h3, windowCount_mul _ _ _ _ hL hsD, windowCount_mul _ _ _ _ hL hsD] at h1
  have : (c + 1) * duration = c * duration + duration := by ring
  omega

/-- C3: among iterations iter = 0..iterations, the number at which corner g is the
active corner of the scheduler (amr.c lines 377-384) equals
full_cycles*duration + clamp(leftover - g*period, 0, duration), and multiplying by
sub_iterations yields exactly the iterations_r[g] of the Validator
(amr.c lines 538-541). -/
theorem claim3_scheduler_count_matches_validator
    (iterations period duration subIterations g : ℕ)
    (hp : 0 < period) (hd : duration ≤ period) (hg : g < 4) :
    activeIterCount period duration g (iterations + 1)
      = fullCycles iterations period * duration
        + min (leftoverIterations iterations period - g * period) duration
    ∧ subIterations * activeIterCount period duration g (iterations + 1)
      = iterationsR iterations period duration subIterations g := by
  have hL : 0 < period * 4 := by omega
  have hsD : g * period + duration ≤ period * 4 := by
    calc g * period + duration ≤ 3 * period + period :=
          Nat.add_le_add (Nat.mul_le_mul_right period (by omega)) hd
      _ = period * 4 := by ring
  have h := activeIterCount_eq_window period duration g (iterations + 1) hd
  rw [h, windowCount_formula _ _ _ hL hsD]
  exact ⟨rfl, rfl⟩

theorem claim3_witness :
    0 < 2 ∧ 1 ≤ 2 ∧ 1 < 4
    ∧ (activeIterCount 2 1 1 (9 + 1)
        = fullCycles 9 2 * 1 + min (leftoverIterations 9 2 - 1 * 2) 1
      ∧ 3 * activeIterCount 2 1 1 (9 + 1) = iterationsR 9 2 1 3 1) :=
  ⟨by decide, by decide, by decide,
    claim3_scheduler_count_matches_validator 9 2 1 3 1 (by decide) (by decide) (by decide)⟩

/-- C6: at any iteration at most one corner is active (the scheduler of amr.c
lines 377-384 picks the single corner (iter/period) % 4), and over any full cycle
of 4*period iterations every corner g < 4 is active for exactly duration
iterations and dormant for the remaining 4*period - duration. -/
theorem claim6_corner_mutual_exclusion_and_duty_cycle (period duration : ℕ)
    (hp : 0 < period) (hd : duration ≤ period) :
    (∀ iter g g', cornerActive period duration g iter →
        cornerActive period duration g' iter → g = g')
    ∧ (∀ c g, g < 4 →
        ((Finset.Ico (c * (period * 4)) ((c + 1) * (period * 4))).filter
          (fun iter => cornerActive period duration g iter)).card = duration
        ∧ ((Finset.Ico (c * (period * 4)) ((c + 1) * (period * 4))).filter
          (fun iter => ¬ cornerActive period duration g iter)).card
            = period * 4 - duration) := by
  refine ⟨fun iter g g' hg hg' => ?_, fun c g hg => ?_⟩
  · rw [← hg.1, ← hg'.1]
  · have hact := activeIterCount_Ico period duration g c hp hd hg
    refine ⟨hact, ?_⟩
    have htot := Finset.filter_card_add_filter_neg_card_eq_card
      (s := Finset.Ico (c * (period * 4)) ((c + 1) * (period * 4)))
      (p := fun iter => cornerActive period duration g iter)
    rw [Nat.card_Ico, hact] at htot
    have : (c + 1) * (period * 4) - c * (period * 4) = period * 4 := by
      have : (c + 1) * (period * 4) = c * (period * 4) + period * 4 := by ring
      omega
    omega

theorem claim6_witness :
    0 < 3 ∧ 2 ≤ 3
    ∧ ((∀ iter g g', cornerActive 3 2 g iter → cornerActive 3 2 g' iter → g = g')
      ∧ (∀ c g, g < 4 →
          ((Finset.Ico (c * (3 * 4)) ((c + 1) * (3 * 4))).filter
            (fun iter => cornerActive 3 2 g iter)).card = 2
          ∧ ((Finset.Ico (c * (3 * 4)) ((c + 1) * (3 * 4))).filter
            (fun iter => ¬ cornerActive 3 2 g iter)).card = 3 * 4 - 2)) :=
  ⟨by decide, by decide,
    claim6_corner_mutual_exclusion_and_duty_cycle 3 2 (by decide) (by decide)⟩

lemma iterationsR_zero_pos (iterations period duration subIterations : ℕ)
    (hp : 0 < period) (hd : 1 ≤ duration) (hs : 1 ≤ subIterations) :
    1 ≤ iterationsR iterations period duration subIterations 0 := by
  unfold iterationsR fullCycles leftoverIterations
  refine Nat.one_le_iff_ne_zero.mpr (Nat.pos_iff_ne_zero.mp (Nat.mul_pos hs ?_))
  rcases Nat.lt_or_ge (iterations + 1) (period * 4) with h | h
  · rw [Nat.mod_eq_of_lt h]
    have hmin : 0 < min (iterations + 1 - 0 * period) duration := by omega
    exact Nat.lt_of_lt_of_le hmin (Nat.le_add_left _ _)
  · have h4 : 0 < (iterations + 1) / (period * 4) := Nat.div_pos h (by omega)
    have hfd : 0 < (iterations + 1) / (period * 4) * duration :=
      Nat.mul_pos h4 (by omega)
    exact Nat.lt_of_lt_of_le hfd (Nat.le_add_right _ _)

/-- C4 fails on the code: for iterations 5, period 1, duration 1,
sub_iterations 1 the Validator compares the norm of corner 0 against
iterations_r[0] * (COEFX+COEFY) (amr.c line 542) with iterations_r[0] = 2, not
against the once-decremented count: the decrement of line 565 happens only after
validation. -/
theorem claim4_counterexample :
    referenceNormR 5 1 1 1 0
      ≠ ((iterationsR 5 1 1 1 0 - 1 : ℕ) : ℚ) * (COEFX + COEFY) := by
  have h : iterationsR 5 1 1 1 0 = 2 := by decide
  rw [referenceNormR, h]
  norm_num [COEFX, COEFY]

/-- C4 amended: the Validator compares every corner g, including corner 0,
against iterations_r[g] * (COEFX+COEFY) with no decrement (amr.c line 542); the
decrement of iterations_r[0] by one iteration, which excludes the untimed
warm-up pass of corner 0, happens after validation (line 565) and enters only
the flops figure: the flops credit the refinements with one iteration fewer than
the total of the four iterations_r values. -/
theorem claim4_amended_reference_undecremented_flops_decremented
    (iterations period duration subIterations : ℕ)
    (hp : 0 < period) (hd : 1 ≤ duration) (hs : 1 ≤ subIterations) :
    (∀ g, referenceNormR iterations period duration subIterations g
        = (iterationsR iterations period duration subIterations g : ℚ)
            * (COEFX + COEFY))
    ∧ ∀ fA fAR : ℚ, ∀ z : ℕ,
        flopsModel fA fAR iterations period duration subIterations z
          = (fA * iterations
              + fAR * ((((iterationsR iterations period duration subIterations 0
                    + iterationsR iterations period duration subIterations 1
                    + iterationsR iterations period duration subIterations 2
                    + iterationsR iterations period duration subIterations 3 : ℕ)) : ℚ)
                  - 1))
            * (2 * (z : ℚ) + 1) := by
  refine ⟨fun g => rfl, fun fA fAR z => ?_⟩
  unfold flopsModel
  have h0 := iterationsR_zero_pos iterations period duration subIterations hp hd hs
  rw [Nat.cast_sub h0]
  push_cast
  ring

theorem claim4_witness :
    0 < 1 ∧ 1 ≤ 1
    ∧ ((∀ g, referenceNormR 5 1 1 1 g = (iterationsR 5 1 1 1 g : ℚ) * (COEFX + COEFY))
      ∧ ∀ fA fAR : ℚ, ∀ z : ℕ,
          flopsModel fA fAR 5 1 1 1 z
            = (fA * 5
                + fAR * ((((iterationsR 5 1 1 1 0 + iterationsR 5 1 1 1 1
                      + iterationsR 5 1 1 1 2 + iterationsR 5 1 1 1 3 : ℕ)) : ℚ) - 1))
              * (2 * (z : ℚ) + 1)) :=
  ⟨by decide, by decide,
    claim4_amended_reference_undecremented_flops_decremented 5 1 1 1
      (by decide) (by decide) (by decide)⟩

/-- C5 fails on the code: at measured background norm 1 against reference 0 the
validation fails, and the program exits with failure without reaching the flops
and rate computation (amr.c lines 556-559 exit before lines 563-576). -/
theorem claim5_counterexample :
    validateFlag 1 0 (fun _ => 0) (fun _ => 0) = false
    ∧ (runTail 1 0 (fun _ => 0) (fun _ => 0)).ratePrinted = false := by
  have h : ¬(|((1 : ℚ)) - 0| ≤ EPSILON) := by norm_num [EPSILON]
  have hv : validateFlag 1 0 (fun _ => 0) (fun _ => 0) = false := by
    unfold validateFlag
    rw [decide_eq_false h, Bool.false_and]
  refine ⟨hv, ?_⟩
  show (finalPhase (validateFlag 1 0 (fun _ => 0) (fun _ => 0))).ratePrinted = false
  rw [hv]
  rfl

/-- C5 amended: when any measured norm is outside EPSILON of its reference the
program reports the failure and exits with failure status without computing or
reporting the throughput figure; flops and rate are reached only on the
validating path. -/
theorem claim5_amended_failure_skips_throughput (norm ref : ℚ) (normR refR : ℕ → ℚ)
    (hfail : validateFlag norm ref normR refR = false) :
    (runTail norm ref normR refR).ratePrinted = false
    ∧ (runTail norm ref normR refR).exitSuccess = false := by
  unfold runTail finalPhase
  rw [hfail]
  exact ⟨rfl, rfl⟩

theorem claim5_witness :
    validateFlag 3 0 (fun _ => 0) (fun _ => 0) = false
    ∧ ((runTail 3 0 (fun _ => 0) (fun _ => 0)).ratePrinted = false
      ∧ (runTail 3 0 (fun _ => 0) (fun _ => 0)).exitSuccess = false) := by
  have h : ¬(|((3 : ℚ)) - 0| ≤ EPSILON) := by norm_num [EPSILON]
  have hv : validateFlag 3 0 (fun _ => 0) (fun _ => 0) = false := by
    unfold validateFlag
    rw [decide_eq_false h, Bool.false_and]
  exact ⟨hv, claim5_amended_failure_skips_throughput 3 0 _ _ hv⟩

lemma count_range_eq (n a : ℕ) : (List.range n).count a = if a < n then 1 else 0 := by
  induction n with
  | zero => simp
  | succ n ih =>
      rw [List.range_succ, List.count_append, ih, List.count_singleton]
      simp only [beq_iff_eq]
      split_ifs <;> omega

lemma count_map_inj {α β : Type} [BEq α] [LawfulBEq α] [BEq β] [LawfulBEq β]
    (l : List α) (f : α → β) (hinj : ∀ a b, f a = f b → a = b) (x : α) :
    (l.map f).count (f x) = l.count x := by
  induction l with
  | nil => rfl
  | cons a l ih =>
      rw [List.map_cons, List.count_cons, List.count_cons, ih]
      have hiff : (f a == f x) = (a == x) := by
        by_cases h : a = x
        · subst h; simp
        · have hne : ¬ f a = f x := fun hc => h (hinj _ _ hc)
          simp [h, hne]
      rw [hiff]

lemma count_stepList_one (lo hi x : ℤ) :
    (stepList lo hi 1).count x = if lo ≤ x ∧ x < hi then 1 else 0 := by
  unfold stepList
  rw [show ((hi - lo).toNat + 1 - 1) / 1 = (hi - lo).toNat from by omega]
  by_cases h : lo ≤ x ∧ x < hi
  · rw [if_pos h]
    have hinj : ∀ a b : ℕ,
        (fun k : ℕ => lo + ((1 : ℕ) : ℤ) * (k : ℤ)) a
          = (fun k : ℕ => lo + ((1 : ℕ) : ℤ) * (k : ℤ)) b → a = b := by
      intro a b hab
      simp only at hab
      omega
    have hx : x = (fun k : ℕ => lo + ((1 : ℕ) : ℤ) * (k : ℤ)) ((x - lo).toNat) := by
      simp only
      omega
    rw [hx, count_map_inj _ _ hinj, count_range_eq, if_pos (by omega)]
  · rw [if_neg h, List.count_eq_zero]
    intro hmem
    rw [List.mem_map] at hmem
    obtain ⟨k, hk, hke⟩ := hmem
    rw [List.mem_range] at hk
    omega

lemma count_flatMap {α β : Type} [BEq β] (l : List α) (f : α → List β) (b : β) :
    (l.flatMap f).count b = (l.map (fun a => (f a).count b)).sum := by
  rw [List.flatMap_def, List.count_flatten, List.map_map]
  rfl

lemma count_pair_flatMap (L M : List ℤ) (i j : ℤ) :
    (L.flatMap (fun y => M.map (fun x => (x, y)))).count (i, j)
      = L.count j * M.count i := by
  induction L with
  | nil => simp
  | cons y L ih =>
      rw [List.flatMap_cons, List.count_append, ih, List.count_cons]
      by_cases hy : y = j
      · subst hy
        have hc : (M.map (fun x : ℤ => (x, y))).count (i, y) = M.count i :=
          count_map_inj M (fun x : ℤ => (x, y))
            (fun a b hab => (Prod.ext_iff.mp hab).1) i
        rw [hc]
        simp
        ring
      · have hnot : (i, j) ∉ M.map (fun x : ℤ => (x, y)) := by
          intro hmem
          rw [List.mem_map] at hmem
          obtain ⟨x, _, hx⟩ := hmem
          exact hy (Prod.ext_iff.mp hx).2
        rw [List.count_eq_zero_of_not_mem hnot]
        simp [hy]

lemma count_untiledPoints (R : ℕ) (S i j : ℤ) :
    (untiledPoints R S).count (i, j)
      = (if (R : ℤ) ≤ j ∧ j < S - R then 1 else 0)
          * (if (R : ℤ) ≤ i ∧ i < S - R then 1 else 0) := by
  unfold untiledPoints
  rw [count_pair_flatMap, count_stepList_one, count_stepList_one]

lemma mem_stepList_lower {lo hi t : ℤ} {T : ℕ} (ht : t ∈ stepList lo hi T) :
    lo ≤ t := by
  unfold stepList at ht
  rw [List.mem_map] at ht
  obtain ⟨k, _, hk⟩ := ht
  have hnn : (0 : ℤ) ≤ (T : ℤ) * (k : ℤ) :=
    mul_nonneg (Int.natCast_nonneg _) (Int.natCast_nonneg _)
  omega

lemma sum_map_range_eq_single (f : ℕ → ℕ) (k0 K : ℕ) (hk0 : k0 < K)
    (hsupp : ∀ k, k ≠ k0 → f k = 0) :
    ((List.range K).map f).sum = f k0 := by
  induction K with
  | zero => omega
  | succ K ih =>
      rw [List.range_succ, List.map_append, List.sum_append]
      by_cases hK : k0 = K
      · subst hK
        have hz : ((List.range k0).map f).sum = 0 := by
          apply List.sum_eq_zero
          intro x hx
          rw [List.mem_map] at hx
          obtain ⟨k, hk, hke⟩ := hx
          rw [List.mem_range] at hk
          rw [← hke]
          exact hsupp k (by omega)
        rw [hz]
        simp
      · rw [ih (by omega)]
        have hz : f K = 0 := hsupp K (by omega)
        simp [hz]

lemma sum_tile_counts (lo hi : ℤ) (T : ℕ) (hT : 0 < T) (x : ℤ) :
    ((stepList lo hi T).map
      (fun t => (stepList t (min hi (t + (T : ℤ))) 1).count x)).sum
      = (stepList lo hi 1).count x := by
  rw [count_stepList_one]
  rw [List.map_congr_left
    (g := fun t : ℤ => if t ≤ x ∧ x < min hi (t + (T : ℤ)) then 1 else 0)
    (fun t _ => count_stepList_one t (min hi (t + (T : ℤ))) x)]
  unfold stepList
  rw [List.map_map]
  simp only [Function.comp_def]
  by_cases h : lo ≤ x ∧ x < hi
  · rw [if_pos h]
    have hd : ((x - lo).toNat : ℤ) = x - lo := Int.toNat_of_nonneg (by omega)
    have hsupp : ∀ k, k ≠ (x - lo).toNat / T →
        (if lo + (T : ℤ) * k ≤ x ∧ x < min hi (lo + (T : ℤ) * k + T) then 1 else 0)
          = 0 := by
      intro k hk
      rw [if_neg]
      rintro ⟨h1, h2⟩
      rw [lt_min_iff] at h2
      apply hk
      have e1 : ((k * T : ℕ) : ℤ) ≤ ((x - lo).toNat : ℤ) := by
        rw [Nat.cast_mul, hd]
        linarith
      have e2 : ((x - lo).toNat : ℤ) < (((k + 1) * T : ℕ) : ℤ) := by
        rw [Nat.cast_mul, hd, Nat.cast_add, Nat.cast_one]
        nlinarith [h2.2]
      exact (Nat.div_eq_of_lt_le (by exact_mod_cast e1) (by exact_mod_cast e2)).symm
    rw [sum_map_range_eq_single _ ((x - lo).toNat / T) _ ?_ hsupp]
    · rw [if_pos]
      constructor
      · have h1 : (x - lo).toNat / T * T ≤ (x - lo).toNat :=
          Nat.div_mul_le_self _ _
        have h1' : (((x - lo).toNat / T * T : ℕ) : ℤ) ≤ ((x - lo).toNat : ℤ) := by
          exact_mod_cast h1
        rw [Nat.cast_mul, hd] at h1'
        linarith
      · rw [lt_min_iff]
        refine ⟨h.2, ?_⟩
        have hdm := Nat.div_add_mod (x - lo).toNat T
        have hml : (x - lo).toNat % T < T := Nat.mod_lt _ hT
        have h2 : (x - lo).toNat < T * ((x - lo).toNat / T) + T := by
          linarith
        have h2' : (((x - lo).toNat : ℕ) : ℤ)
            < ((T * ((x - lo).toNat / T) + T : ℕ) : ℤ) := by exact_mod_cast h2
        rw [Nat.cast_add, Nat.cast_mul, hd] at h2'
        linarith
    · have step1 : (x - lo).toNat / T + 1 = ((x - lo).toNat + T) / T :=
        (Nat.add_div_right _ hT).symm
      have step2 : ((x - lo).toNat + T) / T ≤ ((hi - lo).toNat + T - 1) / T :=
        Nat.div_le_div_right (by omega)
      have step3 : (x - lo).toNat / T + 1 ≤ ((hi - lo).toNat + T - 1) / T := by
        rw [step1]
        exact step2
      exact lt_of_lt_of_le (Nat.lt_succ_self _) step3
  · rw [if_neg h]
    apply List.sum_eq_zero
    intro v hv
    rw [List.mem_map] at hv
    obtain ⟨k, _, hk⟩ := hv
    rw [← hk, if_neg]
    rintro ⟨h1, h2⟩
    rw [lt_min_iff] at h2
    have hnn : (0 : ℤ) ≤ (T : ℤ) * (k : ℤ) :=
      mul_nonneg (Int.natCast_nonneg _) (Int.natCast_nonneg _)
    exact h ⟨by linarith, h2.1⟩

lemma applyPoints_apply (c : ℤ → ℤ → ℚ) (pts : List (ℤ × ℤ)) (out : Grid)
    (i j : ℤ) :
    applyPoints c pts out i j = out i j + (pts.count (i, j) : ℚ) * c i j := by
  induction pts generalizing out with
  | nil => simp [applyPoints]
  | cons p pts ih =>
      rw [show applyPoints c (p :: pts) out
          = applyPoints c pts
              (fun x y => if x = p.1 ∧ y = p.2 then out x y + c x y else out x y)
        from rfl]
      rw [ih, List.count_cons]
      by_cases hp : i = p.1 ∧ j = p.2
      · have hpe : p = (i, j) := Prod.ext_iff.mpr ⟨hp.1.symm, hp.2.symm⟩
        simp only [if_pos hp, beq_iff_eq, if_pos hpe]
        push_cast
        ring
      · have hne : ¬ p = (i, j) :=
          fun hc => hp ⟨(Prod.ext_iff.mp hc).1.symm, (Prod.ext_iff.mp hc).2.symm⟩
        simp only [if_neg hp, beq_iff_eq, if_neg hne]
        push_cast
        ring

lemma count_tiledPoints (R : ℕ) (S : ℤ) (T : ℕ) (hT : 0 < T) (i j : ℤ) :
    (tiledPoints R S T).count (i, j) = (untiledPoints R S).count (i, j) := by
  unfold tiledPoints untiledPoints
  rw [count_flatMap]
  rw [List.map_congr_left
    (g := fun jt : ℤ => (stepList jt (min (S - R) (jt + (T : ℤ))) 1).count j
        * (stepList (R : ℤ) (S - R) 1).count i)
    (fun jt _ => by
      rw [count_flatMap]
      rw [List.map_congr_left
        (g := fun it : ℤ => (stepList jt (min (S - R) (jt + (T : ℤ))) 1).count j
            * (stepList it (min (S - R) (it + (T : ℤ))) 1).count i)
        (fun it _ => count_pair_flatMap _ _ i j)]
      rw [List.sum_map_mul_left, sum_tile_counts _ _ _ hT i])]
  rw [List.sum_map_mul_right, sum_tile_counts _ _ _ hT j, count_pair_flatMap]

lemma count_tiledPoints_zero (R : ℕ) (S : ℤ) (T : ℕ) (i j : ℤ)
    (h : ¬((R : ℤ) ≤ i ∧ i < S - R ∧ (R : ℤ) ≤ j ∧ j < S - R)) :
    (tiledPoints R S T).count (i, j) = 0 := by
  unfold tiledPoints
  rw [count_flatMap]
  apply List.sum_eq_zero
  intro v hv
  rw [List.mem_map] at hv
  obtain ⟨jt, hjt, hveq⟩ := hv
  rw [← hveq, count_flatMap]
  apply List.sum_eq_zero
  intro u hu
  rw [List.mem_map] at hu
  obtain ⟨it, hit, hueq⟩ := hu
  rw [← hueq, count_pair_flatMap, count_stepList_one, count_stepList_one]
  have hjt' : (R : ℤ) ≤ jt := mem_stepList_lower hjt
  have hit' : (R : ℤ) ≤ it := mem_stepList_lower hit
  by_cases hI : (R : ℤ) ≤ i ∧ i < S - R
  · by_cases hJ : (R : ℤ) ≤ j ∧ j < S - R
    · exact absurd ⟨hI.1, hI.2, hJ.1, hJ.2⟩ h
    · have hz : (if jt ≤ j ∧ j < min (S - (R : ℤ)) (jt + (T : ℤ)) then 1 else 0) = 0 := by
        rw [if_neg]
        rintro ⟨h1, h2⟩
        rw [lt_min_iff] at h2
        exact hJ ⟨le_trans hjt' h1, h2.1⟩
      rw [hz, Nat.zero_mul]
  · have hz : (if it ≤ i ∧ i < min (S - (R : ℤ)) (it + (T : ℤ)) then 1 else 0) = 0 := by
      rw [if_neg]
      rintro ⟨h1, h2⟩
      rw [lt_min_iff] at h2
      exact hI ⟨le_trans hit' h1, h2.1⟩
    rw [hz, Nat.mul_zero]

lemma count_untiledPoints_interior (R : ℕ) (S i j : ℤ)
    (hi1 : (R : ℤ) ≤ i) (hi2 : i < S - R) (hj1 : (R : ℤ) ≤ j) (hj2 : j < S - R) :
    (untiledPoints R S).count (i, j) = 1 := by
  rw [count_untiledPoints, if_pos ⟨hj1, hj2⟩, if_pos ⟨hi1, hi2⟩]

lemma count_pointsOf_interior (strat : Strategy) (R : ℕ) (S i j : ℤ)
    (hstrat : validStrategy strat = true)
    (hi1 : (R : ℤ) ≤ i) (hi2 : i < S - R) (hj1 : (R : ℤ) ≤ j) (hj2 : j < S - R) :
    (pointsOf strat R S).count (i, j) = 1 := by
  cases strat with
  | untiled => exact count_untiledPoints_interior R S i j hi1 hi2 hj1 hj2
  | tiled T =>
      have hT : 0 < T := of_decide_eq_true hstrat
      show (tiledPoints R S T).count (i, j) = 1
      rw [count_tiledPoints R S T hT i j]
      exact count_untiledPoints_interior R S i j hi1 hi2 hj1 hj2

/-- C7: for every input buffer, weight table and positive tile size, the tiled
loop nest of amr.c lines 467-492 computes, at every point, the same value as the
untiled double loop of lines 443-465: over exact arithmetic the two loop orders
are equivalent (each interior point is visited exactly once by each, with the
same inner reduction). -/
theorem claim7_tiled_untiled_equivalent (shape : Shape) (R T : ℕ) (S : ℤ)
    (w : ℤ → ℤ → ℚ) (inb out : Grid) (hT : 0 < T) (i j : ℤ) :
    applyStencil shape (Strategy.tiled T) R S w inb out i j
      = applyStencil shape Strategy.untiled R S w inb out i j := by
  unfold applyStencil pointsOf
  rw [applyPoints_apply, applyPoints_apply, count_tiledPoints R S T hT i j]

theorem claim7_witness :
    0 < 2
    ∧ applyStencil Shape.star (Strategy.tiled 2) 1 5 (weightStar 1)
        (lin 3 5 0) (fun _ _ => 0) 2 3
      = applyStencil Shape.star Strategy.untiled 1 5 (weightStar 1)
        (lin 3 5 0) (fun _ _ => 0) 2 3 :=
  ⟨by decide,
    claim7_tiled_untiled_equivalent Shape.star 1 2 5 (weightStar 1)
      (lin 3 5 0) (fun _ _ => 0) (by decide) 2 3⟩

/-- C9: a stencil application writes only interior points
RADIUS <= i,j < S-RADIUS (the loop bounds of amr.c lines 444-445, 467-470 and,
for the refinement grids, 387-388 and 410-413): every cell within RADIUS of an
edge keeps the value the caller left in out, for either shape and either loop
order, on a buffer of any linear size. -/
theorem claim9_halo_never_written (shape : Shape) (strat : Strategy) (R : ℕ)
    (S : ℤ) (w : ℤ → ℤ → ℚ) (inb out : Grid) (i j : ℤ)
    (h : ¬((R : ℤ) ≤ i ∧ i < S - R ∧ (R : ℤ) ≤ j ∧ j < S - R)) :
    applyStencil shape strat R S w inb out i j = out i j := by
  unfold applyStencil
  cases strat with
  | untiled =>
      show applyPoints _ (untiledPoints R S) out i j = out i j
      rw [applyPoints_apply, count_untiledPoints]
      by_cases hI : (R : ℤ) ≤ i ∧ i < S - R
      · by_cases hJ : (R : ℤ) ≤ j ∧ j < S - R
        · exact absurd ⟨hI.1, hI.2, hJ.1, hJ.2⟩ h
        · rw [if_neg hJ, Nat.zero_mul]
          push_cast
          ring
      · rw [if_neg hI, Nat.mul_zero]
        push_cast
        ring
  | tiled T =>
      show applyPoints _ (tiledPoints R S T) out i j = out i j
      rw [applyPoints_apply, count_tiledPoints_zero R S T i j h]
      push_cast
      ring

theorem claim9_witness :
    ¬(((1 : ℕ) : ℤ) ≤ 0 ∧ (0 : ℤ) < 5 - (1 : ℕ) ∧ ((1 : ℕ) : ℤ) ≤ 2 ∧ (2 : ℤ) < 5 - (1 : ℕ))
    ∧ applyStencil Shape.compact (Strategy.tiled 2) 1 5 (weightCompact 1)
        (lin 3 5 0) (fun x y => x + 7 * y) 0 2 = 0 + 7 * 2 :=
  ⟨by decide,
    claim9_halo_never_written Shape.compact (Strategy.tiled 2) 1 5 (weightCompact 1)
      (lin 3 5 0) (fun x y => x + 7 * y) 0 2 (by decide)⟩

lemma sum_Icc_neg (a b : ℤ) (f : ℤ → ℚ) :
    ∑ x ∈ Finset.Icc a b, f x = ∑ x ∈ Finset.Icc (-b) (-a), f (-x) := by
  rw [show Finset.Icc (-b) (-a) = Finset.image (fun x : ℤ => -x) (Finset.Icc a b) from by
    ext t
    simp only [Finset.mem_image, Finset.mem_Icc]
    constructor
    · rintro ⟨h1, h2⟩
      exact ⟨-t, ⟨by omega, by omega⟩, by omega⟩
    · rintro ⟨x, ⟨h1, h2⟩, hx⟩
      omega]
  rw [Finset.sum_image (by intro x _ y _ h; omega)]
  exact Finset.sum_congr rfl (fun x _ => by rw [neg_neg])

lemma weightStar_zero_k (R : ℕ) (k : ℤ) (h1 : 1 ≤ k) (h2 : k ≤ (R : ℤ)) :
    weightStar R 0 k = 1 / (2 * (k : ℚ) * R) := by
  unfold weightStar
  rw [if_pos ⟨rfl, h1, h2⟩]

lemma weightStar_k_zero (R : ℕ) (k : ℤ) (h1 : 1 ≤ k) (h2 : k ≤ (R : ℤ)) :
    weightStar R k 0 = 1 / (2 * (k : ℚ) * R) := by
  unfold weightStar
  rw [if_neg (by rintro ⟨h, _⟩; omega), if_pos ⟨rfl, h1, h2⟩]

lemma weightStar_axis_odd (R : ℕ) (x : ℤ) :
    weightStar R 0 (-x) = - weightStar R 0 x := by
  unfold weightStar
  split_ifs <;> first | omega | (push_cast; ring)

lemma weightStar_axis_odd' (R : ℕ) (x : ℤ) :
    weightStar R (-x) 0 = - weightStar R x 0 := by
  unfold weightStar
  split_ifs <;> first | omega | (push_cast; ring)

lemma Icc_card_cast (a b : ℤ) (h : a ≤ b + 1) :
    ((Finset.Icc a b).card : ℚ) = ((b + 1 - a : ℤ) : ℚ) := by
  rw [Int.card_Icc]
  rw [show (((b + 1 - a).toNat : ℕ) : ℚ) = (((b + 1 - a).toNat : ℤ) : ℚ) from by
    norm_cast]
  rw [Int.toNat_of_nonneg (by omega)]

lemma star_axis_sum_zero (R : ℕ) :
    ∑ jj ∈ Finset.Icc (-(R : ℤ)) (R : ℤ), weightStar R 0 jj = 0 := by
  have hrefl := sum_Icc_neg (-(R : ℤ)) (R : ℤ) (fun x => weightStar R 0 x)
  rw [neg_neg] at hrefl
  have hodd : ∑ x ∈ Finset.Icc (-(R : ℤ)) (R : ℤ), weightStar R 0 (-x)
      = ∑ x ∈ Finset.Icc (-(R : ℤ)) (R : ℤ), -(weightStar R 0 x) :=
    Finset.sum_congr rfl (fun x _ => weightStar_axis_odd R x)
  rw [hodd, Finset.sum_neg_distrib] at hrefl
  linarith

lemma star_split_sum (R : ℕ) (f : ℤ → ℚ) :
    ∑ x ∈ Finset.Icc (-(R : ℤ)) (R : ℤ), f x
      = (∑ x ∈ Finset.Icc (-(R : ℤ)) (-1), f x) + f 0
        + ∑ x ∈ Finset.Icc (1 : ℤ) (R : ℤ), f x := by
  have hs1 : Finset.Icc (-(R : ℤ)) (R : ℤ)
      = (Finset.Icc (-(R : ℤ)) (-1) ∪ Finset.Icc (0 : ℤ) 0)
          ∪ Finset.Icc (1 : ℤ) (R : ℤ) := by
    ext t
    simp only [Finset.mem_union, Finset.mem_Icc]
    omega
  rw [hs1, Finset.sum_union, Finset.sum_union]
  · rw [Finset.Icc_self, Finset.sum_singleton]
  · rw [Finset.disjoint_left]
    intro t ht1 ht2
    simp only [Finset.mem_Icc] at ht1 ht2
    omega
  · rw [Finset.disjoint_left]
    intro t ht1 ht2
    simp only [Finset.mem_union, Finset.mem_Icc] at ht1 ht2
    omega

lemma star_moment_half (R : ℕ) (hR : 1 ≤ R) :
    ∑ k ∈ Finset.Icc (1 : ℤ) (R : ℤ), (k : ℚ) * weightStar R 0 k = 1 / 2 := by
  have hconst : ∑ k ∈ Finset.Icc (1 : ℤ) (R : ℤ), (k : ℚ) * weightStar R 0 k
      = ∑ k ∈ Finset.Icc (1 : ℤ) (R : ℤ), 1 / (2 * (R : ℚ)) := by
    apply Finset.sum_congr rfl
    intro k hk
    rw [Finset.mem_Icc] at hk
    rw [weightStar_zero_k R k hk.1 hk.2]
    have hk0 : (k : ℚ) ≠ 0 := by
      rw [Int.cast_ne_zero]
      omega
    have hR0 : ((R : ℕ) : ℚ) ≠ 0 := by
      rw [Nat.cast_ne_zero]
      omega
    field_simp
    ring
  rw [hconst, Finset.sum_const, nsmul_eq_mul, Icc_card_cast 1 (R : ℤ) (by omega)]
  have hR0 : ((R : ℕ) : ℚ) ≠ 0 := by
    rw [Nat.cast_ne_zero]
    omega
  push_cast
  field_simp
  ring

lemma star_moment_one (R : ℕ) (hR : 1 ≤ R) :
    ∑ jj ∈ Finset.Icc (-(R : ℤ)) (R : ℤ), (jj : ℚ) * weightStar R 0 jj = 1 := by
  rw [star_split_sum R (fun jj => (jj : ℚ) * weightStar R 0 jj)]
  have hneg : ∑ x ∈ Finset.Icc (-(R : ℤ)) (-1), (x : ℚ) * weightStar R 0 x
      = 1 / 2 := by
    have hrefl := sum_Icc_neg (-(R : ℤ)) (-1) (fun x => (x : ℚ) * weightStar R 0 x)
    simp only [neg_neg] at hrefl
    rw [hrefl]
    have : ∑ x ∈ Finset.Icc (1 : ℤ) (R : ℤ), ((-x : ℤ) : ℚ) * weightStar R 0 (-x)
        = ∑ x ∈ Finset.Icc (1 : ℤ) (R : ℤ), (x : ℚ) * weightStar R 0 x := by
      apply Finset.sum_congr rfl
      intro x _
      rw [weightStar_axis_odd R x]
      push_cast
      ring
    rw [this, star_moment_half R hR]
  rw [hneg, star_moment_half R hR]
  norm_num

lemma star_axis_sum_row_cancel (R : ℕ) :
    (∑ ii ∈ Finset.Icc (-(R : ℤ)) (-1), weightStar R ii 0)
      + ∑ ii ∈ Finset.Icc (1 : ℤ) (R : ℤ), weightStar R ii 0 = 0 := by
  have hrefl := sum_Icc_neg (-(R : ℤ)) (-1) (fun x => weightStar R x 0)
  simp only [neg_neg] at hrefl
  rw [hrefl]
  have hodd : ∑ x ∈ Finset.Icc (1 : ℤ) (R : ℤ), weightStar R (-x) 0
      = ∑ x ∈ Finset.Icc (1 : ℤ) (R : ℤ), -(weightStar R x 0) :=
    Finset.sum_congr rfl (fun x _ => weightStar_axis_odd' R x)
  rw [hodd, Finset.sum_neg_distrib]
  ring

lemma star_moment_half_row (R : ℕ) (hR : 1 ≤ R) :
    ∑ k ∈ Finset.Icc (1 : ℤ) (R : ℤ), (k : ℚ) * weightStar R k 0 = 1 / 2 := by
  have hcongr : ∀ k ∈ Finset.Icc (1 : ℤ) (R : ℤ),
      (k : ℚ) * weightStar R k 0 = (k : ℚ) * weightStar R 0 k := by
    intro k hk
    rw [Finset.mem_Icc] at hk
    rw [weightStar_k_zero R k hk.1 hk.2, weightStar_zero_k R k hk.1 hk.2]
  rw [Finset.sum_congr rfl hcongr]
  exact star_moment_half R hR

lemma star_moment_half_row_neg (R : ℕ) (hR : 1 ≤ R) :
    ∑ k ∈ Finset.Icc (-(R : ℤ)) (-1), (k : ℚ) * weightStar R k 0 = 1 / 2 := by
  have hrefl := sum_Icc_neg (-(R : ℤ)) (-1) (fun x => (x : ℚ) * weightStar R x 0)
  simp only [neg_neg] at hrefl
  rw [hrefl]
  have hcongr : ∀ x ∈ Finset.Icc (1 : ℤ) (R : ℤ),
      ((-x : ℤ) : ℚ) * weightStar R (-x) 0 = (x : ℚ) * weightStar R x 0 := by
    intro x _
    rw [weightStar_axis_odd' R x]
    push_cast
    ring
  rw [Finset.sum_congr rfl hcongr]
  exact star_moment_half_row R hR

lemma starContrib_linear (R : ℕ) (hR : 1 ≤ R) (a b c : ℚ) (i j : ℤ) :
    starContrib R (weightStar R) (lin a b c) i j = a + b := by
  unfold starContrib lin
  have e1 : ∑ jj ∈ Finset.Icc (-(R : ℤ)) (R : ℤ),
      weightStar R 0 jj * (a * ((i : ℤ) : ℚ) + b * (((j + jj : ℤ)) : ℚ) + c)
      = ∑ jj ∈ Finset.Icc (-(R : ℤ)) (R : ℤ),
        ((a * (i : ℚ) + b * (j : ℚ) + c) * weightStar R 0 jj
          + b * ((jj : ℚ) * weightStar R 0 jj)) :=
    Finset.sum_congr rfl (fun jj _ => by push_cast; ring)
  have e2 : ∑ ii ∈ Finset.Icc (-(R : ℤ)) (-1),
      weightStar R ii 0 * (a * (((i + ii : ℤ)) : ℚ) + b * ((j : ℤ) : ℚ) + c)
      = ∑ ii ∈ Finset.Icc (-(R : ℤ)) (-1),
        ((a * (i : ℚ) + b * (j : ℚ) + c) * weightStar R ii 0
          + a * ((ii : ℚ) * weightStar R ii 0)) :=
    Finset.sum_congr rfl (fun ii _ => by push_cast; ring)
  have e3 : ∑ ii ∈ Finset.Icc (1 : ℤ) (R : ℤ),
      weightStar R ii 0 * (a * (((i + ii : ℤ)) : ℚ) + b * ((j : ℤ) : ℚ) + c)
      = ∑ ii ∈ Finset.Icc (1 : ℤ) (R : ℤ),
        ((a * (i : ℚ) + b * (j : ℚ) + c) * weightStar R ii 0
          + a * ((ii : ℚ) * weightStar R ii 0)) :=
    Finset.sum_congr rfl (fun ii _ => by push_cast; ring)
  rw [e1, e2, e3]
  rw [Finset.sum_add_distrib, Finset.sum_add_distrib, Finset.sum_add_distrib,
    ← Finset.mul_sum, ← Finset.mul_sum, ← Finset.mul_sum, ← Finset.mul_sum,
    ← Finset.mul_sum, ← Finset.mul_sum,
    star_axis_sum_zero R, star_moment_one R hR,
    star_moment_half_row R hR, star_moment_half_row_neg R hR]
  have hcancel := star_axis_sum_row_cancel R
  linear_combination (a * (i : ℚ) + b * (j : ℚ) + c) * hcancel

set_option maxHeartbeats 2000000 in
lemma wC_antisym (R : ℕ) (ii jj : ℤ) :
    weightCompact R (-ii) (-jj) = - weightCompact R ii jj := by
  unfold weightCompact
  split_ifs <;> first | omega | (push_cast; ring)

set_option maxHeartbeats 2000000 in
lemma wC_transpose (R : ℕ) (ii jj : ℤ) :
    weightCompact R jj ii = weightCompact R ii jj := by
  by_cases hd : ii = jj
  · subst hd
    rfl
  · unfold weightCompact
    split_ifs <;> first | omega | (push_cast; ring)

lemma wC_middle (R : ℕ) (j0 ii : ℤ) (h1 : 1 ≤ j0) (h2 : j0 ≤ (R : ℤ))
    (h3 : -j0 < ii) (h4 : ii < j0) :
    weightCompact R ii j0 = 1 / (4 * (j0 : ℚ) * (2 * (j0 : ℚ) - 1) * R) := by
  unfold weightCompact
  rw [if_pos ⟨h1, h2, h3, h4⟩]

lemma wC_diag (R : ℕ) (j0 : ℤ) (h1 : 1 ≤ j0) (h2 : j0 ≤ (R : ℤ)) :
    weightCompact R j0 j0 = 1 / (4 * (j0 : ℚ) * R) := by
  unfold weightCompact
  rw [if_neg (by omega), if_neg (by omega), if_neg (by omega), if_neg (by omega),
    if_pos ⟨h1, h2, rfl⟩]

lemma wC_neg_diag_row (R : ℕ) (j0 : ℤ) (h1 : 1 ≤ j0) :
    weightCompact R (-j0) j0 = 0 := by
  unfold weightCompact
  rw [if_neg (by omega), if_neg (by omega), if_neg (by omega), if_neg (by omega),
    if_neg (by omega), if_neg (by omega)]

lemma wC_tail (R : ℕ) (j0 x : ℤ) (h1 : 1 ≤ j0) (hx1 : j0 < x) (hx2 : x ≤ (R : ℤ)) :
    weightCompact R x j0 = 1 / (4 * (x : ℚ) * (2 * (x : ℚ) - 1) * R) := by
  unfold weightCompact
  rw [if_neg (by omega), if_neg (by omega), if_pos ⟨by omega, hx2, by omega, hx1⟩]

lemma wC_tail_neg (R : ℕ) (j0 x : ℤ) (h1 : 1 ≤ j0) (hx1 : j0 < x) (hx2 : x ≤ (R : ℤ)) :
    weightCompact R (-x) j0 = -(1 / (4 * (x : ℚ) * (2 * (x : ℚ) - 1) * R)) := by
  unfold weightCompact
  rw [if_neg (by omega), if_neg (by omega), if_neg (by omega),
    if_pos ⟨by omega, by omega, by omega, by omega⟩]
  push_cast
  ring

lemma wC_rowsum_pos (R : ℕ) (hR : 1 ≤ R) (j0 : ℤ) (h1 : 1 ≤ j0) (h2 : j0 ≤ (R : ℤ)) :
    ∑ ii ∈ Finset.Icc (-(R : ℤ)) (R : ℤ), weightCompact R ii j0
      = 1 / (2 * (j0 : ℚ) * R) := by
  have hsplit : Finset.Icc (-(R : ℤ)) (R : ℤ)
      = ((Finset.Icc (-(R : ℤ)) (-(j0 + 1)) ∪ Finset.Icc (-j0) (-j0))
          ∪ Finset.Icc (-(j0 - 1)) (j0 - 1))
        ∪ (Finset.Icc j0 j0 ∪ Finset.Icc (j0 + 1) (R : ℤ)) := by
    ext t
    simp only [Finset.mem_union, Finset.mem_Icc]
    omega
  rw [hsplit]
  rw [Finset.sum_union (by
    rw [Finset.disjoint_left]
    intro t ht1 ht2
    simp only [Finset.mem_union, Finset.mem_Icc] at ht1 ht2
    omega)]
  rw [Finset.sum_union (by
    rw [Finset.disjoint_left]
    intro t ht1 ht2
    simp only [Finset.mem_union, Finset.mem_Icc] at ht1 ht2
    omega)]
  rw [Finset.sum_union (by
    rw [Finset.disjoint_left]
    intro t ht1 ht2
    simp only [Finset.mem_union, Finset.mem_Icc] at ht1 ht2
    omega)]
  rw [Finset.sum_union (by
    rw [Finset.disjoint_left]
    intro t ht1 ht2
    simp only [Finset.mem_union, Finset.mem_Icc] at ht1 ht2
    omega)]
  have ht2 : ∑ ii ∈ Finset.Icc (-j0) (-j0), weightCompact R ii j0 = 0 := by
    rw [Finset.Icc_self, Finset.sum_singleton, wC_neg_diag_row R j0 h1]
  have ht4 : ∑ ii ∈ Finset.Icc j0 j0, weightCompact R ii j0
      = 1 / (4 * (j0 : ℚ) * R) := by
    rw [Finset.Icc_self, Finset.sum_singleton, wC_diag R j0 h1 h2]
  have hT3 : ∑ ii ∈ Finset.Icc (-(j0 - 1)) (j0 - 1), weightCompact R ii j0
      = 1 / (4 * (j0 : ℚ) * R) := by
    have hcongr : ∀ ii ∈ Finset.Icc (-(j0 - 1)) (j0 - 1),
        weightCompact R ii j0 = 1 / (4 * (j0 : ℚ) * (2 * (j0 : ℚ) - 1) * R) := by
      intro ii hii
      rw [Finset.mem_Icc] at hii
      exact wC_middle R j0 ii h1 h2 (by omega) (by omega)
    rw [Finset.sum_congr rfl hcongr, Finset.sum_const, nsmul_eq_mul,
      Icc_card_cast _ _ (by omega)]
    have hj0 : (j0 : ℚ) ≠ 0 := by
      rw [Int.cast_ne_zero]
      omega
    have hj1 : (2 * (j0 : ℚ) - 1) ≠ 0 := by
      have : (1 : ℚ) ≤ (j0 : ℚ) := by exact_mod_cast h1
      nlinarith
    have hR0 : ((R : ℕ) : ℚ) ≠ 0 := by
      rw [Nat.cast_ne_zero]
      omega
    push_cast
    field_simp
    ring
  have hT1 : ∑ ii ∈ Finset.Icc (-(R : ℤ)) (-(j0 + 1)), weightCompact R ii j0
      = -(∑ ii ∈ Finset.Icc (j0 + 1) (R : ℤ), weightCompact R ii j0) := by
    have hrefl := sum_Icc_neg (-(R : ℤ)) (-(j0 + 1))
      (fun x => weightCompact R x j0)
    simp only [neg_neg] at hrefl
    rw [hrefl]
    have hcongr : ∀ x ∈ Finset.Icc (j0 + 1) (R : ℤ),
        weightCompact R (-x) j0 = -(weightCompact R x j0) := by
      intro x hx
      rw [Finset.mem_Icc] at hx
      rw [wC_tail_neg R j0 x h1 (by omega) hx.2, wC_tail R j0 x h1 (by omega) hx.2]
    rw [Finset.sum_congr rfl hcongr, Finset.sum_neg_distrib]
  rw [ht2, ht4, hT3, hT1]
  have hj0 : (j0 : ℚ) ≠ 0 := by
    rw [Int.cast_ne_zero]
    omega
  have hR0 : ((R : ℕ) : ℚ) ≠ 0 := by
    rw [Nat.cast_ne_zero]
    omega
  field_simp
  ring

lemma wC_rowsum_zero (R : ℕ) :
    ∑ ii ∈ Finset.Icc (-(R : ℤ)) (R : ℤ), weightCompact R ii 0 = 0 := by
  have hrefl := sum_Icc_neg (-(R : ℤ)) (R : ℤ) (fun x => weightCompact R x 0)
  simp only [neg_neg] at hrefl
  have hodd : ∀ x ∈ Finset.Icc (-(R : ℤ)) (R : ℤ),
      weightCompact R (-x) 0 = -(weightCompact R x 0) := by
    intro x _
    have h := wC_antisym R x 0
    rw [neg_zero] at h
    exact h
  rw [Finset.sum_congr rfl hodd, Finset.sum_neg_distrib] at hrefl
  linarith

lemma wC_rowsum_neg (R : ℕ) (hR : 1 ≤ R) (j0 : ℤ) (h1 : 1 ≤ j0) (h2 : j0 ≤ (R : ℤ)) :
    ∑ ii ∈ Finset.Icc (-(R : ℤ)) (R : ℤ), weightCompact R ii (-j0)
      = -(1 / (2 * (j0 : ℚ) * R)) := by
  have hrefl := sum_Icc_neg (-(R : ℤ)) (R : ℤ) (fun x => weightCompact R x (-j0))
  simp only [neg_neg] at hrefl
  rw [hrefl]
  have hcongr : ∀ x ∈ Finset.Icc (-(R : ℤ)) (R : ℤ),
      weightCompact R (-x) (-j0) = -(weightCompact R x j0) :=
    fun x _ => wC_antisym R x j0
  rw [Finset.sum_congr rfl hcongr, Finset.sum_neg_distrib,
    wC_rowsum_pos R hR j0 h1 h2]

lemma wC_total_zero (R : ℕ) :
    ∑ jj ∈ Finset.Icc (-(R : ℤ)) (R : ℤ), ∑ ii ∈ Finset.Icc (-(R : ℤ)) (R : ℤ),
      weightCompact R ii jj = 0 := by
  have hrefl := sum_Icc_neg (-(R : ℤ)) (R : ℤ)
    (fun jj => ∑ ii ∈ Finset.Icc (-(R : ℤ)) (R : ℤ), weightCompact R ii jj)
  simp only [neg_neg] at hrefl
  have hodd : ∀ jj ∈ Finset.Icc (-(R : ℤ)) (R : ℤ),
      (∑ ii ∈ Finset.Icc (-(R : ℤ)) (R : ℤ), weightCompact R ii (-jj))
        = -(∑ ii ∈ Finset.Icc (-(R : ℤ)) (R : ℤ), weightCompact R ii jj) := by
    intro jj _
    have hin := sum_Icc_neg (-(R : ℤ)) (R : ℤ) (fun x => weightCompact R x (-jj))
    simp only [neg_neg] at hin
    rw [hin]
    have hcongr : ∀ x ∈ Finset.Icc (-(R : ℤ)) (R : ℤ),
        weightCompact R (-x) (-jj) = -(weightCompact R x jj) :=
      fun x _ => wC_antisym R x jj
    rw [Finset.sum_congr rfl hcongr, Finset.sum_neg_distrib]
  rw [Finset.sum_congr rfl hodd, Finset.sum_neg_distrib] at hrefl
  linarith

lemma sum_k_mul_inv (R : ℕ) (hR : 1 ≤ R) :
    ∑ k ∈ Finset.Icc (1 : ℤ) (R : ℤ), (k : ℚ) * (1 / (2 * (k : ℚ) * R)) = 1 / 2 := by
  have hcongr : ∀ k ∈ Finset.Icc (1 : ℤ) (R : ℤ),
      (k : ℚ) * (1 / (2 * (k : ℚ) * R)) = 1 / (2 * (R : ℚ)) := by
    intro k hk
    rw [Finset.mem_Icc] at hk
    have hk0 : (k : ℚ) ≠ 0 := by
      rw [Int.cast_ne_zero]
      omega
    have hR0 : ((R : ℕ) : ℚ) ≠ 0 := by
      rw [Nat.cast_ne_zero]
      omega
    field_simp
    ring
  rw [Finset.sum_congr rfl hcongr, Finset.sum_const, nsmul_eq_mul,
    Icc_card_cast 1 (R : ℤ) (by omega)]
  have hR0 : ((R : ℕ) : ℚ) ≠ 0 := by
    rw [Nat.cast_ne_zero]
    omega
  push_cast
  field_simp
  ring

lemma wC_moment_rows (R : ℕ) (hR : 1 ≤ R) :
    ∑ jj ∈ Finset.Icc (-(R : ℤ)) (R : ℤ),
      (jj : ℚ) * ∑ ii ∈ Finset.Icc (-(R : ℤ)) (R : ℤ), weightCompact R ii jj
      = 1 := by
  rw [star_split_sum R (fun jj => (jj : ℚ)
    * ∑ ii ∈ Finset.Icc (-(R : ℤ)) (R : ℤ), weightCompact R ii jj)]
  have hpos : ∑ jj ∈ Finset.Icc (1 : ℤ) (R : ℤ),
      (jj : ℚ) * ∑ ii ∈ Finset.Icc (-(R : ℤ)) (R : ℤ), weightCompact R ii jj
      = 1 / 2 := by
    have hcongr : ∀ jj ∈ Finset.Icc (1 : ℤ) (R : ℤ),
        (jj : ℚ) * ∑ ii ∈ Finset.Icc (-(R : ℤ)) (R : ℤ), weightCompact R ii jj
          = (jj : ℚ) * (1 / (2 * (jj : ℚ) * R)) := by
      intro jj hj
      rw [Finset.mem_Icc] at hj
      rw [wC_rowsum_pos R hR jj hj.1 hj.2]
    rw [Finset.sum_congr rfl hcongr]
    exact sum_k_mul_inv R hR
  have hneg : ∑ jj ∈ Finset.Icc (-(R : ℤ)) (-1),
      (jj : ℚ) * ∑ ii ∈ Finset.Icc (-(R : ℤ)) (R : ℤ), weightCompact R ii jj
      = 1 / 2 := by
    have hrefl := sum_Icc_neg (-(R : ℤ)) (-1) (fun jj => (jj : ℚ)
      * ∑ ii ∈ Finset.Icc (-(R : ℤ)) (R : ℤ), weightCompact R ii jj)
    simp only [neg_neg] at hrefl
    rw [hrefl]
    have hcongr : ∀ x ∈ Finset.Icc (1 : ℤ) (R : ℤ),
        ((-x : ℤ) : ℚ) * (∑ ii ∈ Finset.Icc (-(R : ℤ)) (R : ℤ),
            weightCompact R ii (-x))
          = (x : ℚ) * (1 / (2 * (x : ℚ) * R)) := by
      intro x hx
      rw [Finset.mem_Icc] at hx
      rw [wC_rowsum_neg R hR x hx.1 hx.2]
      push_cast
      ring
    rw [Finset.sum_congr rfl hcongr]
    exact sum_k_mul_inv R hR
  rw [hpos, hneg]
  push_cast
  ring

lemma wC_moment_cols (R : ℕ) (hR : 1 ≤ R) :
    ∑ jj ∈ Finset.Icc (-(R : ℤ)) (R : ℤ), ∑ ii ∈ Finset.Icc (-(R : ℤ)) (R : ℤ),
      (ii : ℚ) * weightCompact R ii jj = 1 := by
  rw [Finset.sum_comm]
  have hcongr : ∀ ii ∈ Finset.Icc (-(R : ℤ)) (R : ℤ),
      (∑ jj ∈ Finset.Icc (-(R : ℤ)) (R : ℤ), (ii : ℚ) * weightCompact R ii jj)
        = (ii : ℚ) * ∑ jj ∈ Finset.Icc (-(R : ℤ)) (R : ℤ), weightCompact R jj ii := by
    intro ii _
    rw [← Finset.mul_sum]
    have hc2 : ∀ jj ∈ Finset.Icc (-(R : ℤ)) (R : ℤ),
        weightCompact R ii jj = weightCompact R jj ii :=
      fun jj _ => (wC_transpose R ii jj).symm
    rw [Finset.sum_congr rfl hc2]
  rw [Finset.sum_congr rfl hcongr]
  exact wC_moment_rows R hR

lemma compactContrib_linear (R : ℕ) (hR : 1 ≤ R) (a b c : ℚ) (i j : ℤ) :
    compactContrib R (weightCompact R) (lin a b c) i j = a + b := by
  unfold compactContrib lin
  have e1 : ∀ jj ∈ Finset.Icc (-(R : ℤ)) (R : ℤ),
      (∑ ii ∈ Finset.Icc (-(R : ℤ)) (R : ℤ),
        weightCompact R ii jj
          * (a * (((i + ii : ℤ)) : ℚ) + b * (((j + jj : ℤ)) : ℚ) + c))
      = ∑ ii ∈ Finset.Icc (-(R : ℤ)) (R : ℤ),
          ((a * (i : ℚ) + b * (j : ℚ) + c) * weightCompact R ii jj
            + a * ((ii : ℚ) * weightCompact R ii jj)
            + b * ((jj : ℚ) * weightCompact R ii jj)) :=
    fun jj _ => Finset.sum_congr rfl (fun ii _ => by push_cast; ring)
  rw [Finset.sum_congr rfl e1]
  simp only [Finset.sum_add_distrib]
  simp only [← Finset.mul_sum]
  rw [wC_total_zero R, wC_moment_cols R hR, wC_moment_rows R hR]
  ring

lemma contribOf_linear (shape : Shape) (R : ℕ) (hR : 1 ≤ R) (a b c : ℚ)
    (i j : ℤ) :
    contribOf shape R (weightOf shape R) (lin a b c) i j = a + b := by
  cases shape with
  | star => exact starContrib_linear R hR a b c i j
  | compact => exact compactContrib_linear R hR a b c i j

/-- C1: for any radius, either stencil shape and either loop order, one
application of the weight table of amr.c lines 286-309 to the field a*i + b*j
(with out zeroed) yields exactly a + b at every interior point: the loops of
amr.c lines 443-492 produce the constant independent of shape and of tiled vs
untiled order. -/
theorem claim1_linear_field_response (shape : Shape) (strat : Strategy)
    (R : ℕ) (S : ℤ) (a b : ℚ) (i j : ℤ) (hR : 1 ≤ R)
    (hstrat : validStrategy strat = true)
    (hi1 : (R : ℤ) ≤ i) (hi2 : i < S - R) (hj1 : (R : ℤ) ≤ j) (hj2 : j < S - R) :
    applyStencil shape strat R S (weightOf shape R) (lin a b 0)
      (fun _ _ => 0) i j = a + b := by
  unfold applyStencil
  rw [applyPoints_apply,
    count_pointsOf_interior strat R S i j hstrat hi1 hi2 hj1 hj2,
    contribOf_linear shape R hR a b 0 i j]
  simp

theorem claim1_witness :
    1 ≤ 1 ∧ validStrategy Strategy.untiled = true
    ∧ ((1 : ℕ) : ℤ) ≤ 1 ∧ (1 : ℤ) < 3 - (1 : ℕ)
    ∧ ((1 : ℕ) : ℤ) ≤ 1 ∧ (1 : ℤ) < 3 - (1 : ℕ)
    ∧ applyStencil Shape.star Strategy.untiled 1 3 (weightOf Shape.star 1)
        (lin 3 5 0) (fun _ _ => 0) 1 1 = 3 + 5 :=
  ⟨by decide, by decide, by decide, by decide, by decide, by decide,
    claim1_linear_field_response Shape.star Strategy.untiled 1 3 3 5 1 1
      (by decide) (by decide) (by decide) (by decide) (by decide) (by decide)⟩

lemma bgRun_in (shape : Shape) (strat : Strategy) (R : ℕ) (S : ℤ) (t : ℕ)
    (i j : ℤ) :
    (bgRun shape strat R S t).1 i j
      = COEFX * (i : ℚ) + COEFY * (j : ℚ) + (t : ℚ) := by
  induction t with
  | zero =>
      show bgInit.1 i j = _
      unfold bgInit
      push_cast
      ring
  | succ t ih =>
      unfold bgRun
      rw [Function.iterate_succ_apply']
      show (bgRun shape strat R S t).1 i j + 1 = _
      rw [ih]
      push_cast
      ring

/-- C10: at the start of each iteration iter the background in buffer holds
exactly COEFX*i + COEFY*j + iter at every cell (initialisation at amr.c lines
350-351, the stencil of lines 443-492 writing only out, and the uniform +1 of
line 495), and this linear-plus-constant form makes the stencil contribution of
that iteration exactly COEFX+COEFY at every point. -/
theorem claim10_background_in_linear_invariant (shape : Shape)
    (strat : Strategy) (R : ℕ) (S : ℤ) (hR : 1 ≤ R) :
    (∀ (iter : ℕ) (i j : ℤ),
      (bgRun shape strat R S iter).1 i j
        = COEFX * (i : ℚ) + COEFY * (j : ℚ) + (iter : ℚ))
    ∧ ∀ (iter : ℕ) (i j : ℤ),
        contribOf shape R (weightOf shape R) (bgRun shape strat R S iter).1 i j
          = COEFX + COEFY := by
  refine ⟨fun iter i j => bgRun_in shape strat R S iter i j, fun iter i j => ?_⟩
  have hlin : (bgRun shape strat R S iter).1 = lin COEFX COEFY (iter : ℚ) :=
    funext (fun x => funext (fun y => by
      rw [bgRun_in shape strat R S iter x y]
      rfl))
  rw [hlin]
  exact contribOf_linear shape R hR COEFX COEFY (iter : ℚ) i j

theorem claim10_witness :
    1 ≤ 1
    ∧ ((∀ (iter : ℕ) (i j : ℤ),
        (bgRun Shape.star Strategy.untiled 1 3 iter).1 i j
          = COEFX * (i : ℚ) + COEFY * (j : ℚ) + (iter : ℚ))
      ∧ ∀ (iter : ℕ) (i j : ℤ),
          contribOf Shape.star 1 (weightOf Shape.star 1)
            (bgRun Shape.star Strategy.untiled 1 3 iter).1 i j
            = COEFX + COEFY) :=
  ⟨by decide,
    claim10_background_in_linear_invariant Shape.star Strategy.untiled 1 3
      (by decide)⟩

lemma bgRun_out_interior (shape : Shape) (strat : Strategy) (R : ℕ) (S : ℤ)
    (hR : 1 ≤ R) (hstrat : validStrategy strat = true) (t : ℕ) (i j : ℤ)
    (hi1 : (R : ℤ) ≤ i) (hi2 : i < S - R) (hj1 : (R : ℤ) ≤ j) (hj2 : j < S - R) :
    (bgRun shape strat R S t).2 i j = (t : ℚ) * (COEFX + COEFY) := by
  induction t with
  | zero =>
      show bgInit.2 i j = _
      unfold bgInit
      push_cast
      ring
  | succ t ih =>
      unfold bgRun
      rw [Function.iterate_succ_apply']
      show applyStencil shape strat R S (weightOf shape R)
          (bgRun shape strat R S t).1 (bgRun shape strat R S t).2 i j = _
      unfold applyStencil
      rw [applyPoints_apply,
        count_pointsOf_interior strat R S i j hstrat hi1 hi2 hj1 hj2, ih]
      have hlin : (bgRun shape strat R S t).1 = lin COEFX COEFY (t : ℚ) :=
        funext (fun x => funext (fun y => by
          rw [bgRun_in shape strat R S t x y]
          rfl))
      rw [hlin, contribOf_linear shape R hR COEFX COEFY (t : ℚ) i j]
      push_cast
      ring

/-- C2: after the loop of amr.c line 372 has executed its iterations+1 bodies
(the untimed warm-up pass at iter = 0 included), the L1 norm of the background
interior computed at lines 502-506 equals exactly (iterations+1)*(COEFX+COEFY),
hence is within EPSILON of the reference of line 523, for either shape and
either loop order. -/
theorem claim2_background_norm_round_trip (shape : Shape) (strat : Strategy)
    (R : ℕ) (S : ℤ) (I : ℕ) (hR : 1 ≤ R) (hS : 2 * (R : ℤ) < S)
    (hstrat : validStrategy strat = true) :
    l1Norm S R (bgRun shape strat R S (I + 1)).2
      = ((I : ℚ) + 1) * (COEFX + COEFY)
    ∧ |l1Norm S R (bgRun shape strat R S (I + 1)).2
        - ((I : ℚ) + 1) * (COEFX + COEFY)| ≤ EPSILON := by
  have hCnn : (0 : ℚ) ≤ COEFX + COEFY := by
    unfold COEFX COEFY
    norm_num
  have hmain : l1Norm S R (bgRun shape strat R S (I + 1)).2
      = ((I : ℚ) + 1) * (COEFX + COEFY) := by
    unfold l1Norm fActivePoints
    have hcongr : ∀ j ∈ Finset.Ico (R : ℤ) (S - R),
        (∑ i ∈ Finset.Ico (R : ℤ) (S - R),
          |(bgRun shape strat R S (I + 1)).2 i j|)
          = ∑ i ∈ Finset.Ico (R : ℤ) (S - R), ((I : ℚ) + 1) * (COEFX + COEFY) := by
      intro j hj
      apply Finset.sum_congr rfl
      intro i hi
      rw [Finset.mem_Ico] at hi hj
      rw [bgRun_out_interior shape strat R S hR hstrat (I + 1) i j
        hi.1 hi.2 hj.1 hj.2]
      rw [abs_of_nonneg (by positivity)]
      push_cast
      ring
    rw [Finset.sum_congr rfl hcongr, Finset.sum_const, Finset.sum_const,
      nsmul_eq_mul, nsmul_eq_mul, Int.card_Ico]
    have hcast : (((S - R - R).toNat : ℕ) : ℚ) = ((S - 2 * R : ℤ) : ℚ) := by
      rw [show (((S - R - R).toNat : ℕ) : ℚ) = (((S - R - R).toNat : ℤ) : ℚ) from by
        norm_cast]
      rw [Int.toNat_of_nonneg (by omega)]
      push_cast
      ring
    rw [hcast]
    have hne : ((S - 2 * R : ℤ) : ℚ) ≠ 0 := by
      rw [Int.cast_ne_zero]
      omega
    rw [div_eq_iff (mul_ne_zero hne hne)]
    ring
  refine ⟨hmain, ?_⟩
  rw [hmain, sub_self, abs_zero]
  unfold EPSILON
  norm_num

theorem claim2_witness :
    1 ≤ 1 ∧ 2 * ((1 : ℕ) : ℤ) < 4 ∧ validStrategy (Strategy.tiled 2) = true
    ∧ (l1Norm 4 1 (bgRun Shape.compact (Strategy.tiled 2) 1 4 (2 + 1)).2
        = ((2 : ℚ) + 1) * (COEFX + COEFY)
      ∧ |l1Norm 4 1 (bgRun Shape.compact (Strategy.tiled 2) 1 4 (2 + 1)).2
          - ((2 : ℚ) + 1) * (COEFX + COEFY)| ≤ EPSILON) :=
  ⟨by decide, by decide, by decide,
    claim2_background_norm_round_trip Shape.compact (Strategy.tiled 2) 1 4 2
      (by decide) (by decide) (by decide)⟩

/-- The number of nonzero entries of the star weight table over its
(2*RADIUS+1) x (2*RADIUS+1) index range. -/
def starNonzeroCount (R : ℕ) : ℕ :=
  (((Finset.Icc (-(R : ℤ)) (R : ℤ)) ×ˢ (Finset.Icc (-(R : ℤ)) (R : ℤ))).filter
    (fun p => weightStar R p.1 p.2 ≠ 0)).card

lemma weightStar_zero_neg (R : ℕ) (k : ℤ) (h1 : 1 ≤ k) (h2 : k ≤ (R : ℤ)) :
    weightStar R 0 (-k) = -(1 / (2 * (k : ℚ) * R)) := by
  rw [weightStar_axis_odd R k, weightStar_zero_k R k h1 h2]

lemma weightStar_neg_zero (R : ℕ) (k : ℤ) (h1 : 1 ≤ k) (h2 : k ≤ (R : ℤ)) :
    weightStar R (-k) 0 = -(1 / (2 * (k : ℚ) * R)) := by
  rw [weightStar_axis_odd' R k, weightStar_k_zero R k h1 h2]

lemma two_mul_cast_pos (R : ℕ) (k : ℤ) (h1 : 1 ≤ k) (hR : 1 ≤ R) :
    (0 : ℚ) < 2 * (k : ℚ) * R := by
  have hk : (1 : ℚ) ≤ (k : ℚ) := by exact_mod_cast h1
  have hr : (1 : ℚ) ≤ ((R : ℕ) : ℚ) := by exact_mod_cast hR
  nlinarith

lemma weightStar_ne_zero_iff (R : ℕ) (hR : 1 ≤ R) (ii jj : ℤ) :
    weightStar R ii jj ≠ 0 ↔
      ((ii = 0 ∧ 1 ≤ jj ∧ jj ≤ (R : ℤ))
        ∨ (jj = 0 ∧ 1 ≤ ii ∧ ii ≤ (R : ℤ))
        ∨ (ii = 0 ∧ -(R : ℤ) ≤ jj ∧ jj ≤ -1)
        ∨ (jj = 0 ∧ -(R : ℤ) ≤ ii ∧ ii ≤ -1)) := by
  constructor
  · intro h
    by_cases c1 : ii = 0 ∧ 1 ≤ jj ∧ jj ≤ (R : ℤ)
    · exact Or.inl c1
    by_cases c2 : jj = 0 ∧ 1 ≤ ii ∧ ii ≤ (R : ℤ)
    · exact Or.inr (Or.inl c2)
    by_cases c3 : ii = 0 ∧ -(R : ℤ) ≤ jj ∧ jj ≤ -1
    · exact Or.inr (Or.inr (Or.inl c3))
    by_cases c4 : jj = 0 ∧ -(R : ℤ) ≤ ii ∧ ii ≤ -1
    · exact Or.inr (Or.inr (Or.inr c4))
    exfalso
    apply h
    unfold weightStar
    rw [if_neg c1, if_neg c2, if_neg c3, if_neg c4]
  · rintro (⟨h1, h2, h3⟩ | ⟨h1, h2, h3⟩ | ⟨h1, h2, h3⟩ | ⟨h1, h2, h3⟩)
    · subst h1
      rw [weightStar_zero_k R jj h2 h3]
      exact one_div_ne_zero (ne_of_gt (two_mul_cast_pos R jj h2 hR))
    · subst h1
      rw [weightStar_k_zero R ii h2 h3]
      exact one_div_ne_zero (ne_of_gt (two_mul_cast_pos R ii h2 hR))
    · subst h1
      rw [show jj = -(-jj) from by ring, weightStar_zero_neg R (-jj) (by omega) (by omega)]
      exact neg_ne_zero.mpr
        (one_div_ne_zero (ne_of_gt (two_mul_cast_pos R (-jj) (by omega) hR)))
    · subst h1
      rw [show ii = -(-ii) from by ring, weightStar_neg_zero R (-ii) (by omega) (by omega)]
      exact neg_ne_zero.mpr
        (one_div_ne_zero (ne_of_gt (two_mul_cast_pos R (-ii) (by omega) hR)))

lemma star_nonzero_count (R : ℕ) (hR : 1 ≤ R) : starNonzeroCount R = 4 * R := by
  unfold starNonzeroCount
  have hset : (((Finset.Icc (-(R : ℤ)) (R : ℤ)) ×ˢ (Finset.Icc (-(R : ℤ)) (R : ℤ))).filter
      (fun p => weightStar R p.1 p.2 ≠ 0))
      = (((Finset.Icc (-(R : ℤ)) (R : ℤ)).erase 0).image (fun k => ((0 : ℤ), k)))
        ∪ (((Finset.Icc (-(R : ℤ)) (R : ℤ)).erase 0).image (fun k => (k, (0 : ℤ)))) := by
    ext p
    simp only [Finset.mem_filter, Finset.mem_product, Finset.mem_union,
      Finset.mem_image, Finset.mem_erase, Finset.mem_Icc, Prod.ext_iff]
    constructor
    · rintro ⟨⟨hp1, hp2⟩, hne⟩
      rcases (weightStar_ne_zero_iff R hR p.1 p.2).mp hne with
        ⟨h1, h2, h3⟩ | ⟨h1, h2, h3⟩ | ⟨h1, h2, h3⟩ | ⟨h1, h2, h3⟩
      · exact Or.inl ⟨p.2, ⟨by omega, by omega, by omega⟩, by omega, by omega⟩
      · exact Or.inr ⟨p.1, ⟨by omega, by omega, by omega⟩, by omega, by omega⟩
      · exact Or.inl ⟨p.2, ⟨by omega, by omega, by omega⟩, by omega, by omega⟩
      · exact Or.inr ⟨p.1, ⟨by omega, by omega, by omega⟩, by omega, by omega⟩
    · rintro (⟨k, ⟨hk0, hk1, hk2⟩, he1, he2⟩ | ⟨k, ⟨hk0, hk1, hk2⟩, he1, he2⟩)
      · refine ⟨⟨by omega, by omega⟩, ?_⟩
        apply (weightStar_ne_zero_iff R hR p.1 p.2).mpr
        rcases Int.lt_or_lt_of_ne hk0 with hneg | hpos
        · exact Or.inr (Or.inr (Or.inl ⟨by omega, by omega, by omega⟩))
        · exact Or.inl ⟨by omega, by omega, by omega⟩
      · refine ⟨⟨by omega, by omega⟩, ?_⟩
        apply (weightStar_ne_zero_iff R hR p.1 p.2).mpr
        rcases Int.lt_or_lt_of_ne hk0 with hneg | hpos
        · exact Or.inr (Or.inr (Or.inr ⟨by omega, by omega, by omega⟩))
        · exact Or.inr (Or.inl ⟨by omega, by omega, by omega⟩)
  rw [hset]
  have hinj1 : Function.Injective (fun k : ℤ => ((0 : ℤ), k)) := by
    intro a b hab
    exact (Prod.ext_iff.mp hab).2
  have hinj2 : Function.Injective (fun k : ℤ => (k, (0 : ℤ))) := by
    intro a b hab
    exact (Prod.ext_iff.mp hab).1
  have hdisj : Disjoint
      (((Finset.Icc (-(R : ℤ)) (R : ℤ)).erase 0).image (fun k => ((0 : ℤ), k)))
      (((Finset.Icc (-(R : ℤ)) (R : ℤ)).erase 0).image (fun k => (k, (0 : ℤ)))) := by
    rw [Finset.disjoint_left]
    intro p hp1 hp2
    simp only [Finset.mem_image, Finset.mem_erase, Finset.mem_Icc,
      Prod.ext_iff] at hp1 hp2
    obtain ⟨k, ⟨hk0, _⟩, he1, he2⟩ := hp1
    obtain ⟨m, ⟨hm0, _⟩, hf1, hf2⟩ := hp2
    omega
  rw [Finset.card_union_of_disjoint hdisj,
    Finset.card_image_of_injective _ hinj1,
    Finset.card_image_of_injective _ hinj2,
    Finset.card_erase_of_mem (by
      rw [Finset.mem_Icc]
      omega),
    Int.card_Icc]
  have : ((R : ℤ) + 1 - -(R : ℤ)).toNat = 2 * R + 1 := by omega
  omega

/-- C8 fails on the code at RADIUS 2: the star weight table built at amr.c
lines 291-296 has 4*RADIUS = 8 nonzero entries (the center entry stays zero),
not 4*RADIUS+1 = 9; the 4*RADIUS+1 figure is the stencil_size of line 292,
which counts the stencil points including the zero-weight center. -/
theorem claim8_counterexample : starNonzeroCount 2 ≠ 4 * 2 + 1 := by
  rw [star_nonzero_count 2 (by omega)]
  decide

/-- C8 amended: the star table is nonzero only on the center row and column,
with value 1/(2*k*RADIUS) at offset k beyond the center and its negation before
the center, and the number of nonzero entries is 4*RADIUS; the code's
stencil_size = 4*RADIUS+1 (line 292) exceeds it by the zero-weight center. -/
theorem claim8_amended_star_table_structure (R : ℕ) (hR : 1 ≤ R) :
    (∀ ii jj : ℤ, weightStar R ii jj ≠ 0 → ii = 0 ∨ jj = 0)
    ∧ (∀ k : ℤ, 1 ≤ k → k ≤ (R : ℤ) →
        weightStar R 0 k = 1 / (2 * (k : ℚ) * R)
        ∧ weightStar R k 0 = 1 / (2 * (k : ℚ) * R)
        ∧ weightStar R 0 (-k) = -(1 / (2 * (k : ℚ) * R))
        ∧ weightStar R (-k) 0 = -(1 / (2 * (k : ℚ) * R)))
    ∧ starNonzeroCount R = 4 * R
    ∧ starNonzeroCount R + 1 = stencilSizeStar R := by
  refine ⟨?_, ?_, star_nonzero_count R hR, ?_⟩
  · intro ii jj h
    rcases (weightStar_ne_zero_iff R hR ii jj).mp h with
      ⟨h1, _⟩ | ⟨h1, _⟩ | ⟨h1, _⟩ | ⟨h1, _⟩
    · exact Or.inl h1
    · exact Or.inr h1
    · exact Or.inl h1
    · exact Or.inr h1
  · intro k h1 h2
    exact ⟨weightStar_zero_k R k h1 h2, weightStar_k_zero R k h1 h2,
      weightStar_zero_neg R k h1 h2, weightStar_neg_zero R k h1 h2⟩
  · rw [star_nonzero_count R hR]
    unfold stencilSizeStar
    omega

theorem claim8_witness :
    1 ≤ 2
    ∧ ((∀ ii jj : ℤ, weightStar 2 ii jj ≠ 0 → ii = 0 ∨ jj = 0)
      ∧ (∀ k : ℤ, 1 ≤ k → k ≤ ((2 : ℕ) : ℤ) →
          weightStar 2 0 k = 1 / (2 * (k : ℚ) * 2)
          ∧ weightStar 2 k 0 = 1 / (2 * (k : ℚ) * 2)
          ∧ weightStar 2 0 (-k) = -(1 / (2 * (k : ℚ) * 2))
          ∧ weightStar 2 (-k) 0 = -(1 / (2 * (k : ℚ) * 2)))
      ∧ starNonzeroCount 2 = 4 * 2
      ∧ starNonzeroCount 2 + 1 = stencilSizeStar 2) :=
  ⟨by decide, claim8_amended_star_table_structure 2 (by decide)⟩

end AMR
